import Mathlib

/-!
Shallow embedding of the ChainDataAnchoring transaction type of caver-js
(packages/caver-transaction/src/transactionTypes/chainDataAnchoring/chainDataAnchoring.js)
together with the parts of its environment that the file uses:

* the RLP codec and Bytes.fromNat of eth-lib (an external collaborator the
  spec assumes correct, consumed as Ethereum-style RLP on byte sequences);
* the hex utilities of caver-utils and the common-field handling of
  AbstractTransaction, which are repository code not present in the sources;
  those definitions are modelled from the spec and marked as such.

Representation conventions:
* a JS hex string such as "0x48ab" is represented by the list of ASCII codes
  of the characters after the "0x" prefix, here [52, 56, 97, 98];
* integer-valued fields (nonce, gasPrice, gas, chainId) are stored by the
  library as minimal hex strings; we represent the stored value by its
  minimal big-endian byte sequence (the empty list denotes zero), which is
  the image of the stored string under Bytes.fromNat, so Bytes.fromNat
  becomes the identity in this embedding;
* the stored input payload is likewise represented canonically: hex digits
  are read case-insensitively everywhere in the library, and eth-lib's
  codec copies hex characters verbatim through encode and decode, so a
  stored string reappears unchanged after a round trip; this embedding
  fixes the lower-case spelling as the canonical representative of the
  stored string, under which the canonical wire rendering below coincides
  with the codec's verbatim character slices;
* the from address is kept at the character level with its case, because
  lower-casing it is an explicit, observable step of both encoders;
* byte sequences are lists of naturals that are < 256 when well-formed.
-/

namespace CaverCDA

/-- Big-endian byte expansion of a natural number, with explicit fuel so the
definition is structural and computable by the kernel. -/
def natToBytesF : Nat → Nat → List Nat
  | 0, _ => []
  | f + 1, n => if n = 0 then [] else natToBytesF f (n / 256) ++ [n % 256]

/-- Minimal big-endian byte expansion of a natural number ([] for zero). -/
def natToBytes (n : Nat) : List Nat := natToBytesF (n + 1) n

/-- Value of a big-endian byte sequence. -/
def bytesToNat (bs : List Nat) : Nat := bs.foldl (fun acc b => acc * 256 + b) 0

theorem bytesToNat_append_one (xs : List Nat) (b : Nat) :
    bytesToNat (xs ++ [b]) = 256 * bytesToNat xs + b := by
  unfold bytesToNat
  rw [List.foldl_append]
  simp [Nat.mul_comm]

theorem natToBytesF_spec : ∀ f n, n < 256 ^ f → bytesToNat (natToBytesF f n) = n := by
  intro f
  induction f with
  | zero => intro n hn; simp at hn; simp [hn, natToBytesF, bytesToNat]
  | succ f ih =>
    intro n hn
    by_cases h0 : n = 0
    · simp [h0, natToBytesF, bytesToNat]
    · have hdiv : n / 256 < 256 ^ f := by
        rw [Nat.div_lt_iff_lt_mul (by norm_num : 0 < 256)]
        calc n < 256 ^ (f + 1) := hn
        _ = 256 ^ f * 256 := by ring
      rw [natToBytesF]
      simp only [h0, if_false]
      rw [bytesToNat_append_one, ih _ hdiv]
      omega

theorem natToBytesF_lt : ∀ f n b, b ∈ natToBytesF f n → b < 256 := by
  intro f
  induction f with
  | zero => intro n b hb; simp [natToBytesF] at hb
  | succ f ih =>
    intro n b hb
    rw [natToBytesF] at hb
    by_cases h0 : n = 0
    · simp [h0] at hb
    · simp only [h0, if_false, List.mem_append, List.mem_singleton] at hb
      rcases hb with hb | hb
      · exact ih _ _ hb
      · omega

theorem natToBytesF_length : ∀ f n k, n < 256 ^ k → (natToBytesF f n).length ≤ k := by
  intro f
  induction f with
  | zero => intro n k _; simp [natToBytesF]
  | succ f ih =>
    intro n k hn
    rw [natToBytesF]
    by_cases h0 : n = 0
    · simp [h0]
    · simp only [h0, if_false, List.length_append, List.length_singleton]
      have hk : k ≠ 0 := by
        intro hk; rw [hk] at hn; simp at hn; omega
      have hdiv : n / 256 < 256 ^ (k - 1) := by
        rw [Nat.div_lt_iff_lt_mul (by norm_num : 0 < 256)]
        calc n < 256 ^ k := hn
        _ = 256 ^ (k - 1) * 256 := by
            conv_lhs => rw [show k = (k - 1) + 1 by omega]
            ring
      have := ih (n / 256) (k - 1) hdiv
      omega

theorem natToBytesF_ne_nil : ∀ f n, n ≠ 0 → 0 < f → natToBytesF f n ≠ [] := by
  intro f n h0 hf
  match f with
  | g + 1 =>
    rw [natToBytesF]
    simp [h0]

theorem lt_pow_256_succ (n : Nat) : n < 256 ^ (n + 1) := by
  calc n < 2 ^ n := Nat.lt_two_pow n
  _ ≤ 256 ^ n := Nat.pow_le_pow_left (by norm_num) n
  _ < 256 ^ (n + 1) := Nat.pow_lt_pow_right (by norm_num) (Nat.lt_succ_self n)

theorem bytesToNat_natToBytes (n : Nat) : bytesToNat (natToBytes n) = n :=
  natToBytesF_spec _ _ (lt_pow_256_succ n)

theorem natToBytes_lt (n b : Nat) (hb : b ∈ natToBytes n) : b < 256 :=
  natToBytesF_lt _ _ _ hb

theorem natToBytes_length (n k : Nat) (hn : n < 256 ^ k) : (natToBytes n).length ≤ k :=
  natToBytesF_length _ _ _ hn

theorem natToBytes_ne_nil (n : Nat) (h0 : n ≠ 0) : natToBytes n ≠ [] :=
  natToBytesF_ne_nil _ _ h0 (Nat.succ_pos n)

/-- ASCII code of the lower-case hex character of a nibble (0-9 then a-f). -/
def hexDigitChar (d : Nat) : Nat := if d < 10 then 48 + d else 87 + d

/-- Two lower-case hex characters of a byte: the canonical spelling of one
wire byte. -/
def byteToHexChars (b : Nat) : List Nat := [hexDigitChar (b / 16), hexDigitChar (b % 16)]

/-- Canonical (lower-case) hex-character sequence of a byte sequence, the
part after the 0x prefix. The external codec copies hex characters verbatim
when encoding and slices them back out when decoding; on the canonical
wires built in this development every content character is already in this
spelling, so this rendering is exactly the codec's character slice. -/
def bytesToHexChars (bs : List Nat) : List Nat := (bs.map byteToHexChars).flatten

/-- Value of one hex character, case-insensitive as in parseInt(c, 16). -/
def hexCharVal (c : Nat) : Option Nat :=
  if 48 ≤ c ∧ c ≤ 57 then some (c - 48)
  else if 97 ≤ c ∧ c ≤ 102 then some (c - 87)
  else if 65 ≤ c ∧ c ≤ 70 then some (c - 55)
  else none

/-- Byte sequence of an even-length hex-character sequence; none on a stray
character or odd length (the codec is only ever fed well-formed hex). -/
def hexCharsToBytes : List Nat → Option (List Nat)
  | [] => some []
  | [_] => none
  | c1 :: c2 :: rest =>
    match hexCharVal c1, hexCharVal c2, hexCharsToBytes rest with
    | some h, some l, some bs => some ((16 * h + l) :: bs)
    | _, _, _ => none

/-- JS String.prototype.toLowerCase on one ASCII code. -/
def lowerChar (c : Nat) : Nat := if 65 ≤ c ∧ c ≤ 90 then c + 32 else c

/-- JS String.prototype.toLowerCase on a hex-character sequence. -/
def lowerChars (cs : List Nat) : List Nat := cs.map lowerChar

/-- Character codes accepted by the hex validator of the utilities. -/
def isHexCode (c : Nat) : Bool :=
  decide ((48 ≤ c ∧ c ≤ 57) ∨ (97 ≤ c ∧ c ≤ 102) ∨ (65 ≤ c ∧ c ≤ 70))

/-- Character codes of canonical (lower-case) hex output. -/
def isLowerHexCode (c : Nat) : Bool :=
  decide ((48 ≤ c ∧ c ≤ 57) ∨ (97 ≤ c ∧ c ≤ 102))

theorem hexCharVal_hexDigitChar (d : Nat) (hd : d < 16) :
    hexCharVal (hexDigitChar d) = some d := by
  unfold hexCharVal hexDigitChar
  split_ifs <;> first
  | (congr 1; omega)
  | omega

theorem hexDigitChar_lower (d : Nat) (hd : d < 16) :
    isLowerHexCode (hexDigitChar d) = true := by
  unfold isLowerHexCode hexDigitChar
  rw [decide_eq_true_eq]
  split_ifs <;> omega

theorem byteToHexChars_lower (b : Nat) (hb : b < 256) :
    ∀ c ∈ byteToHexChars b, isLowerHexCode c = true := by
  intro c hc
  unfold byteToHexChars at hc
  simp only [List.mem_cons, List.mem_singleton, List.not_mem_nil, or_false] at hc
  rcases hc with hc | hc <;> subst hc
  · exact hexDigitChar_lower _ (by omega)
  · exact hexDigitChar_lower _ (by omega)

theorem bytesToHexChars_lower (bs : List Nat) (hbs : ∀ b ∈ bs, b < 256) :
    ∀ c ∈ bytesToHexChars bs, isLowerHexCode c = true := by
  intro c hc
  unfold bytesToHexChars at hc
  rw [List.mem_flatten] at hc
  obtain ⟨l, hl, hcl⟩ := hc
  rw [List.mem_map] at hl
  obtain ⟨b, hb, rfl⟩ := hl
  exact byteToHexChars_lower b (hbs b hb) c hcl

theorem bytesToHexChars_length (bs : List Nat) :
    (bytesToHexChars bs).length = 2 * bs.length := by
  induction bs with
  | nil => simp [bytesToHexChars]
  | cons b rest ih =>
    simp only [bytesToHexChars, List.map_cons, List.join_cons, List.length_append] at *
    simp [byteToHexChars, ih]
    omega

theorem bytesToHexChars_cons (b : Nat) (bs : List Nat) :
    bytesToHexChars (b :: bs) =
      hexDigitChar (b / 16) :: hexDigitChar (b % 16) :: bytesToHexChars bs := by
  simp [bytesToHexChars, byteToHexChars]

theorem bytesToHexChars_append (xs ys : List Nat) :
    bytesToHexChars (xs ++ ys) = bytesToHexChars xs ++ bytesToHexChars ys := by
  simp [bytesToHexChars]

theorem hexCharsToBytes_bytesToHexChars :
    ∀ bs : List Nat, (∀ b ∈ bs, b < 256) → hexCharsToBytes (bytesToHexChars bs) = some bs
  | [], _ => rfl
  | b :: rest, h => by
    rw [bytesToHexChars_cons, hexCharsToBytes]
    have hb : b < 256 := h b (List.mem_cons_self _ _)
    rw [hexCharVal_hexDigitChar _ (by omega), hexCharVal_hexDigitChar _ (by omega),
      hexCharsToBytes_bytesToHexChars rest (fun x hx => h x (List.mem_cons_of_mem _ hx))]
    have : 16 * (b / 16) + b % 16 = b := by omega
    simp [this]

theorem isLowerHexCode_val (c : Nat) (hc : isLowerHexCode c = true) :
    ∃ d, hexCharVal c = some d ∧ d < 16 ∧ hexDigitChar d = c := by
  unfold isLowerHexCode at hc
  rw [decide_eq_true_eq] at hc
  rcases hc with hc | hc
  · refine ⟨c - 48, ?_, by omega, ?_⟩
    · unfold hexCharVal; split_ifs <;> first | rfl | omega
    · unfold hexDigitChar; split_ifs <;> omega
  · refine ⟨c - 87, ?_, by omega, ?_⟩
    · unfold hexCharVal; split_ifs <;> first | rfl | omega
    · unfold hexDigitChar; split_ifs <;> omega

theorem hexCharsToBytes_inv :
    ∀ cs : List Nat, (∀ c ∈ cs, isLowerHexCode c = true) → cs.length % 2 = 0 →
      ∃ bs, hexCharsToBytes cs = some bs ∧ bytesToHexChars bs = cs ∧ ∀ b ∈ bs, b < 256
  | [], _, _ => ⟨[], rfl, rfl, by simp⟩
  | [c], _, hlen => by simp at hlen
  | c1 :: c2 :: rest, h, hlen => by
    obtain ⟨bs, hbs, hback, hlt⟩ := hexCharsToBytes_inv rest
      (fun c hc => h c (List.mem_cons_of_mem _ (List.mem_cons_of_mem _ hc)))
      (by simp only [List.length_cons] at hlen; omega)
    obtain ⟨d1, hv1, hd1, hb1⟩ := isLowerHexCode_val c1 (h c1 (by simp))
    obtain ⟨d2, hv2, hd2, hb2⟩ := isLowerHexCode_val c2 (h c2 (by simp))
    refine ⟨(16 * d1 + d2) :: bs, ?_, ?_, ?_⟩
    · rw [hexCharsToBytes, hv1, hv2, hbs]
    · rw [bytesToHexChars_cons, hback]
      have hdiv : (16 * d1 + d2) / 16 = d1 := by omega
      have hmod : (16 * d1 + d2) % 16 = d2 := by omega
      rw [hdiv, hmod, hb1, hb2]
    · intro b hb
      rcases List.mem_cons.mp hb with rfl | hb
      · omega
      · exact hlt b hb

theorem lowerChar_of_lower (c : Nat) (hc : isLowerHexCode c = true) : lowerChar c = c := by
  unfold isLowerHexCode at hc
  rw [decide_eq_true_eq] at hc
  unfold lowerChar
  split_ifs <;> omega

theorem lowerChars_of_lower (cs : List Nat) (h : ∀ c ∈ cs, isLowerHexCode c = true) :
    lowerChars cs = cs := by
  unfold lowerChars
  conv_rhs => rw [← List.map_id cs]
  exact List.map_congr_left fun c hc => lowerChar_of_lower c (h c hc)

theorem isHexCode_of_lower (c : Nat) (hc : isLowerHexCode c = true) : isHexCode c = true := by
  unfold isLowerHexCode at hc
  unfold isHexCode
  rw [decide_eq_true_eq] at hc ⊢
  tauto

theorem isLowerHexCode_lowerChar (c : Nat) (hc : isHexCode c = true) :
    isLowerHexCode (lowerChar c) = true := by
  unfold isHexCode at hc
  unfold isLowerHexCode lowerChar
  rw [decide_eq_true_eq] at hc
  rw [decide_eq_true_eq]
  split_ifs <;> omega

/-- JS-style removal of the leading zero bytes of a decoded integer field.
Modelled from the spec: integers decoded from RLP with leading zero bytes are
normalized by stripping those bytes (utils.trimLeadingZero, a repository
utility not present in the sources). -/
def dropZeros (bs : List Nat) : List Nat := bs.dropWhile (fun b => b == 0)

theorem dropZeros_head : ∀ bs : List Nat, (dropZeros bs).head? ≠ some 0
  | [] => by simp [dropZeros]
  | b :: rest => by
    by_cases hb : b = 0
    · subst hb
      simpa [dropZeros, List.dropWhile_cons] using dropZeros_head rest
    · simp [dropZeros, List.dropWhile_cons, hb]

theorem dropZeros_of_head (bs : List Nat) (h : bs.head? ≠ some 0) : dropZeros bs = bs := by
  cases bs with
  | nil => rfl
  | cons b rest =>
    have hb : b ≠ 0 := by simpa using h
    simp [dropZeros, List.dropWhile_cons, hb]

theorem dropZeros_idem (bs : List Nat) : dropZeros (dropZeros bs) = dropZeros bs :=
  dropZeros_of_head _ (dropZeros_head bs)

mutual
/-- Node of the nested byte-sequence structure the external RLP codec
operates on (spec §6: Ethereum-style RLP over nested byte lists). -/
inductive RItem where
  | str (bs : List Nat)
  | list (items : RItems)
/-- Spine of RLP nodes, mutual with RItem so all recursion stays structural. -/
inductive RItems where
  | nil
  | cons (hd : RItem) (tl : RItems)
end

/-- Spine built from an ordinary list of items. -/
def itemsOfList : List RItem → RItems
  | [] => .nil
  | x :: xs => .cons x (itemsOfList xs)

/-- Length prefix of an RLP encoding: one tag byte for payloads of at most 55
bytes, otherwise a long-form tag followed by the big-endian payload length. -/
def encWithLen (short long : Nat) (payload : List Nat) : List Nat :=
  if payload.length ≤ 55 then (short + payload.length) :: payload
  else (long + (natToBytes payload.length).length) :: (natToBytes payload.length ++ payload)

/-- RLP encoding of one byte string: a single byte below 0x80 stands for
itself, anything else gets a length prefix. -/
def encStr (bs : List Nat) : List Nat :=
  if bs.length = 1 ∧ bs.headD 0 < 128 then bs else encWithLen 128 183 bs

mutual
/-- RLP encoding of an item (bytes of the hex string RLP.encode returns). -/
def rlpEncode : RItem → List Nat
  | .str bs => encStr bs
  | .list items => encWithLen 192 247 (rlpEncodeList items)
/-- Concatenated RLP encodings of a spine of items (a list payload). -/
def rlpEncodeList : RItems → List Nat
  | .nil => []
  | .cons hd tl => rlpEncode hd ++ rlpEncodeList tl
end

mutual
/-- Well-formedness of an item: genuine bytes and RLP-representable lengths. -/
def rlpWf : RItem → Bool
  | .str bs => decide (bs.length < 2 ^ 64) && bs.all (fun b => decide (b < 256))
  | .list items => decide ((rlpEncodeList items).length < 2 ^ 64) && rlpWfs items
/-- Well-formedness of a spine of items. -/
def rlpWfs : RItems → Bool
  | .nil => true
  | .cons hd tl => rlpWf hd && rlpWfs tl
end

mutual
/-- Fuel measure of an item, used to bound the decoder recursion. -/
def sizeI : RItem → Nat
  | .str _ => 1
  | .list items => sizeL items + 2
/-- Fuel measure of a spine of items. -/
def sizeL : RItems → Nat
  | .nil => 0
  | .cons hd tl => sizeI hd + sizeL tl + 1
end

mutual
/-- Recursive-descent RLP decoder for one item; returns the item and the
remaining input. Fuel makes the recursion structural. -/
def decodeItemF : Nat → List Nat → Option (RItem × List Nat)
  | 0, _ => none
  | _ + 1, [] => none
  | fuel + 1, b :: rest =>
    if b < 128 then some (.str [b], rest)
    else if b ≤ 183 then
      let n := b - 128
      if rest.length < n then none
      else some (.str (rest.take n), rest.drop n)
    else if b ≤ 191 then
      let ll := b - 183
      if rest.length < ll then none
      else
        let n := bytesToNat (rest.take ll)
        let rest2 := rest.drop ll
        if rest2.length < n then none
        else some (.str (rest2.take n), rest2.drop n)
    else if b ≤ 247 then
      let n := b - 192
      if rest.length < n then none
      else
        match decodeListF fuel (rest.take n) with
        | some items => some (.list items, rest.drop n)
        | none => none
    else
      let ll := b - 247
      if rest.length < ll then none
      else
        let n := bytesToNat (rest.take ll)
        let rest2 := rest.drop ll
        if rest2.length < n then none
        else
          match decodeListF fuel (rest2.take n) with
          | some items => some (.list items, rest2.drop n)
          | none => none
/-- Decoder for a list payload: items until the payload is exhausted. -/
def decodeListF : Nat → List Nat → Option RItems
  | 0, _ => none
  | _ + 1, [] => some .nil
  | fuel + 1, b :: rest =>
    match decodeItemF fuel (b :: rest) with
    | some (it, rest2) =>
      match decodeListF fuel rest2 with
      | some items => some (.cons it items)
      | none => none
    | none => none
end

/-- Top-level RLP decode of a byte sequence; the fuel is sufficient for every
encoding (three calls per byte bound). The whole input must be consumed. -/
def rlpDecodeBytes (bs : List Nat) : Option RItem :=
  match decodeItemF (3 * bs.length + 3) bs with
  | some (it, []) => some it
  | _ => none

theorem encWithLen_ne_nil (s l : Nat) (payload : List Nat) :
    encWithLen s l payload ≠ [] := by
  unfold encWithLen
  split_ifs <;> simp

theorem rlpEncode_ne_nil : ∀ it, rlpEncode it ≠ []
  | .str bs => by
    rw [rlpEncode, encStr]
    split_ifs with h
    · obtain ⟨b, rfl⟩ := List.length_eq_one.mp h.1
      simp
    · exact encWithLen_ne_nil _ _ _
  | .list items => by
    rw [rlpEncode]
    exact encWithLen_ne_nil _ _ _

theorem encWithLen_length (s l : Nat) (payload : List Nat) :
    1 + payload.length ≤ (encWithLen s l payload).length := by
  unfold encWithLen
  split_ifs <;> simp <;> omega

theorem encWithLen_lt (s l : Nat) (hs : s ≤ 192) (hl : l ≤ 247) (payload : List Nat)
    (hp : ∀ b ∈ payload, b < 256) (hlen : payload.length < 2 ^ 64) :
    ∀ b ∈ encWithLen s l payload, b < 256 := by
  intro b hb
  unfold encWithLen at hb
  split_ifs at hb with h
  · rcases List.mem_cons.mp hb with rfl | hb
    · omega
    · exact hp _ hb
  · rcases List.mem_cons.mp hb with rfl | hb
    · have h8 : (natToBytes payload.length).length ≤ 8 := natToBytes_length _ 8 (by norm_num at hlen ⊢; omega)
      omega
    · rcases List.mem_append.mp hb with hb | hb
      · exact natToBytes_lt _ _ hb
      · exact hp _ hb

mutual
theorem rlpEncode_lt : ∀ it, rlpWf it = true → ∀ b ∈ rlpEncode it, b < 256
  | .str bs, hwf => by
    rw [rlpWf, Bool.and_eq_true, decide_eq_true_eq, List.all_eq_true] at hwf
    obtain ⟨hlen, hall⟩ := hwf
    have hall2 : ∀ b ∈ bs, b < 256 := fun b hb => by
      have := hall b hb; rwa [decide_eq_true_eq] at this
    rw [rlpEncode, encStr]
    split_ifs with h
    · obtain ⟨b, rfl⟩ := List.length_eq_one.mp h.1
      intro x hx
      simp only [List.mem_singleton] at hx
      subst hx
      exact hall2 _ (by simp)
    · exact encWithLen_lt 128 183 (by norm_num) (by norm_num) bs hall2 hlen
  | .list items, hwf => by
    rw [rlpWf, Bool.and_eq_true, decide_eq_true_eq] at hwf
    obtain ⟨hlen, hwfs⟩ := hwf
    rw [rlpEncode]
    exact encWithLen_lt 192 247 (by norm_num) (by norm_num) _
      (rlpEncodeList_lt items hwfs) hlen
theorem rlpEncodeList_lt : ∀ its, rlpWfs its = true → ∀ b ∈ rlpEncodeList its, b < 256
  | .nil, _ => by simp [rlpEncodeList]
  | .cons hd tl, hwf => by
    rw [rlpWfs, Bool.and_eq_true] at hwf
    intro b hb
    rw [rlpEncodeList, List.mem_append] at hb
    rcases hb with hb | hb
    · exact rlpEncode_lt hd hwf.1 b hb
    · exact rlpEncodeList_lt tl hwf.2 b hb
end

mutual
theorem sizeI_le : ∀ it, sizeI it + 1 ≤ 3 * (rlpEncode it).length
  | .str bs => by
    have h := rlpEncode_ne_nil (.str bs)
    have hpos : 0 < (rlpEncode (.str bs)).length := List.length_pos.mpr h
    rw [sizeI]
    omega
  | .list items => by
    have h := sizeL_le items
    have h2 := encWithLen_length 192 247 (rlpEncodeList items)
    rw [sizeI, rlpEncode]
    omega
theorem sizeL_le : ∀ its, sizeL its ≤ 3 * (rlpEncodeList its).length
  | .nil => by simp [sizeL, rlpEncodeList]
  | .cons hd tl => by
    have h1 := sizeI_le hd
    have h2 := sizeL_le tl
    rw [sizeL, rlpEncodeList]
    simp only [List.length_append]
    omega
end

theorem pow_256_8 : (256 : Nat) ^ 8 = 2 ^ 64 := by norm_num

/-- Joint encode-then-decode inversion for the RLP codec, by induction on the
decoder fuel: any well-formed item followed by arbitrary trailing input is
recovered exactly. -/
theorem rlpDecode_inv : ∀ fuel : Nat,
    (∀ it rest, rlpWf it = true → sizeI it ≤ fuel →
      decodeItemF fuel (rlpEncode it ++ rest) = some (it, rest)) ∧
    (∀ its, rlpWfs its = true → sizeL its + 1 ≤ fuel →
      decodeListF fuel (rlpEncodeList its) = some its) := by
  intro fuel
  induction fuel with
  | zero =>
    constructor
    · intro it rest _ hsz
      cases it <;> rw [sizeI] at hsz <;> omega
    · intro its _ hsz
      omega
  | succ fuel ih =>
    constructor
    · intro it rest hwf hsz
      cases it with
      | str bs =>
        rw [rlpWf, Bool.and_eq_true, decide_eq_true_eq, List.all_eq_true] at hwf
        obtain ⟨hlen, _⟩ := hwf
        rw [rlpEncode, encStr]
        by_cases h1 : bs.length = 1 ∧ bs.headD 0 < 128
        · obtain ⟨b, rfl⟩ := List.length_eq_one.mp h1.1
          have hb : b < 128 := by simpa using h1.2
          rw [if_pos h1]
          show decodeItemF (fuel + 1) (b :: rest) = _
          simp only [decodeItemF]
          rw [if_pos hb]
        · rw [if_neg h1, encWithLen]
          by_cases h2 : bs.length ≤ 55
          · rw [if_pos h2]
            show decodeItemF (fuel + 1) ((128 + bs.length) :: (bs ++ rest)) = _
            simp only [decodeItemF]
            rw [if_neg (by omega), if_pos (by omega : 128 + bs.length ≤ 183)]
            have harith : 128 + bs.length - 128 = bs.length := by omega
            rw [harith, if_neg (by simp), List.take_left, List.drop_left]
          · rw [if_neg h2]
            show decodeItemF (fuel + 1)
              ((183 + (natToBytes bs.length).length) ::
                ((natToBytes bs.length ++ bs) ++ rest)) = _
            have hnn : natToBytes bs.length ≠ [] := natToBytes_ne_nil _ (by omega)
            have hll1 : 1 ≤ (natToBytes bs.length).length :=
              List.length_pos.mpr hnn
            have hll8 : (natToBytes bs.length).length ≤ 8 :=
              natToBytes_length _ 8 (by rw [pow_256_8]; exact hlen)
            simp only [decodeItemF]
            rw [if_neg (by omega), if_neg (by omega),
              if_pos (by omega : 183 + (natToBytes bs.length).length ≤ 191)]
            have harith : 183 + (natToBytes bs.length).length - 183 =
              (natToBytes bs.length).length := by omega
            rw [harith, List.append_assoc,
              if_neg (by simp), List.take_left, List.drop_left,
              bytesToNat_natToBytes, if_neg (by simp), List.take_left,
              List.drop_left]
      | list items =>
        rw [rlpWf, Bool.and_eq_true, decide_eq_true_eq] at hwf
        obtain ⟨hlen, hwfs⟩ := hwf
        rw [sizeI] at hsz
        have hitems : decodeListF fuel (rlpEncodeList items) = some items :=
          ih.2 items hwfs (by omega)
        rw [rlpEncode, encWithLen]
        by_cases h2 : (rlpEncodeList items).length ≤ 55
        · rw [if_pos h2]
          show decodeItemF (fuel + 1)
            ((192 + (rlpEncodeList items).length) ::
              (rlpEncodeList items ++ rest)) = _
          simp only [decodeItemF]
          rw [if_neg (by omega), if_neg (by omega),
            if_neg (by omega : ¬192 + (rlpEncodeList items).length ≤ 191),
            if_pos (by omega : 192 + (rlpEncodeList items).length ≤ 247)]
          have harith : 192 + (rlpEncodeList items).length - 192 =
            (rlpEncodeList items).length := by omega
          rw [harith, if_neg (by simp), List.take_left, List.drop_left, hitems]
        · rw [if_neg h2]
          show decodeItemF (fuel + 1)
            ((247 + (natToBytes (rlpEncodeList items).length).length) ::
              ((natToBytes (rlpEncodeList items).length ++ rlpEncodeList items)
                ++ rest)) = _
          have hnn : natToBytes (rlpEncodeList items).length ≠ [] :=
            natToBytes_ne_nil _ (by omega)
          have hll1 : 1 ≤ (natToBytes (rlpEncodeList items).length).length :=
            List.length_pos.mpr hnn
          have hll8 : (natToBytes (rlpEncodeList items).length).length ≤ 8 :=
            natToBytes_length _ 8 (by rw [pow_256_8]; exact hlen)
          simp only [decodeItemF]
          rw [if_neg (by omega), if_neg (by omega), if_neg (by omega),
            if_neg (by omega)]
          have harith : 247 + (natToBytes (rlpEncodeList items).length).length
            - 247 = (natToBytes (rlpEncodeList items).length).length := by omega
          rw [harith, List.append_assoc, if_neg (by simp), List.take_left,
            List.drop_left, bytesToNat_natToBytes, if_neg (by simp),
            List.take_left, List.drop_left, hitems]
    · intro its hwf hsz
      cases its with
      | nil =>
        rw [rlpEncodeList]
        simp only [decodeListF]
      | cons hd tl =>
        rw [rlpWfs, Bool.and_eq_true] at hwf
        rw [sizeL] at hsz
        obtain ⟨e, es, he⟩ : ∃ e es, rlpEncode hd = e :: es := by
          cases h : rlpEncode hd with
          | nil => exact absurd h (rlpEncode_ne_nil hd)
          | cons e es => exact ⟨e, es, rfl⟩
        rw [rlpEncodeList, he]
        have hhd : decodeItemF fuel (e :: (es ++ rlpEncodeList tl)) =
            some (hd, rlpEncodeList tl) := by
          have heq : e :: (es ++ rlpEncodeList tl) =
              rlpEncode hd ++ rlpEncodeList tl := by
            rw [he]; simp
          rw [heq]
          exact ih.1 hd _ hwf.1 (by omega)
        have htl : decodeListF fuel (rlpEncodeList tl) = some tl :=
          ih.2 tl hwf.2 (by omega)
        show decodeListF (fuel + 1) (e :: (es ++ rlpEncodeList tl)) = _
        simp only [decodeListF]
        rw [hhd]
        simp [htl]

/-- Signature triple (v, r, s) as stored by the wallet's SignatureData; each
component is a byte sequence. Modelled from the spec: a signature triple is
kept in insertion order and encoded back as the [v, r, s] list for RLP. -/
structure SigData where
  v : List Nat
  r : List Nat
  s : List Nat
  deriving DecidableEq

/-- In-memory state of a ChainDataAnchoring transaction object. Integer
fields are none when undefined in JS; an assigned integer is kept as its
minimal big-endian byte sequence (the image of the stored minimal hex string
under the fixed string-to-bytes bijection). fromAddr and input keep their
hex character codes, so letter case is preserved exactly as in JS. -/
structure CDATx where
  nonce : Option (List Nat)
  gasPrice : Option (List Nat)
  gas : Option (List Nat)
  chainId : Option (List Nat)
  fromAddr : Option (List Nat)
  input : List Nat
  signatures : List SigData
  deriving DecidableEq

/-- JS string value carrying hex content: px records whether the literal
begins with the 0x prefix and cs holds the remaining character codes. -/
structure JsStr where
  px : Bool
  cs : List Nat
  deriving DecidableEq

/-- JS truthiness of a string: every non-empty string is truthy (so the bare
prefix 0x is truthy while the empty string is not). -/
def truthy (s : JsStr) : Bool := s.px || !s.cs.isEmpty

/-- JS truthiness of a possibly-undefined string. -/
def truthyO : Option JsStr → Bool
  | none => false
  | some s => truthy s

/-- JS evaluation of input || data. -/
def jsOr (a b : Option JsStr) : Option JsStr := if truthyO a then a else b

/-- Modelled from the spec: utils.isHex of caver-utils (the hex validation of
the Field Codec Helpers), true when every character is a hex digit, with or
without the 0x prefix. -/
def isHexStr (s : JsStr) : Bool := s.cs.all isHexCode

deriving instance DecidableEq for Except

/-- Failure cases of construction and decoding, named after the error
taxonomy of spec §7. -/
inductive TxErr where
  | unsupportedTypeTag
  | malformedRlp
  | conflictingField
  | invalidInput
  | invalidAddress
  deriving DecidableEq

/-- Modelled from the spec: the integer setters of AbstractTransaction
(nonce, gas, chainId) and the gasPrice setter of the source file canonicalize
an assigned integer to a minimal big-endian representation. -/
def normInt (bs : List Nat) : List Nat := dropZeros bs

/-- Setter for the input field, from the source (lines 112-115): rejects a
falsy or non-hex value at assignment time, then stores the hex value
(utils.toHex, modelled from the spec, adds the prefix). The stored string
is kept in its canonical lower-case representation, the same fixed
injective reading used for the integer fields: the codec copies characters
verbatim in both directions, so the program round-trips the stored string
exactly and the canonical representative round-trips exactly here. -/
def setInput (v : Option JsStr) : Except TxErr (List Nat) :=
  match v with
  | none => .error .invalidInput
  | some s =>
    if truthy s = false then .error .invalidInput
    else if isHexStr s = false then .error .invalidInput
    else .ok (lowerChars s.cs)

/-- Modelled from the spec: the from setter of AbstractTransaction validates
the address (20 bytes of hex characters) and stores it in lower case. -/
def setFrom (cs : List Nat) : Except TxErr (List Nat) :=
  if cs.length = 40 && cs.all isHexCode then .ok (lowerChars cs)
  else .error .invalidAddress

/-- Character codes of the ChainDataAnchoring type tag 0x48, as they appear
after the 0x prefix of an encoded transaction. -/
def tagChars : List Nat := [52, 56]

/-- Type tag byte of ChainDataAnchoring. -/
def tagByte : Nat := 72

/-- RLP item of one signature, as produced by sig.encode(). -/
def sigItem (sg : SigData) : RItem :=
  .list (.cons (.str sg.v) (.cons (.str sg.r) (.cons (.str sg.s) .nil)))

/-- Spine of signature items in list order. -/
def sigsItems : List SigData → RItems
  | [] => .nil
  | sg :: rest => .cons (sigItem sg) (sigsItems rest)

/-- Modelled from the spec: AbstractTransaction.validateOptionalValues
requires the required integer fields of the envelope (nonce, gas, chainId)
to be defined. -/
def validateCommonFields (tx : CDATx) : Bool :=
  tx.nonce.isSome && tx.gas.isSome && tx.chainId.isSome

/-- validateOptionalValues of the source file (lines 192-196): the shared
check plus the gasPrice check added by ChainDataAnchoring. -/
def validateOptionalValues (tx : CDATx) : Bool :=
  validateCommonFields tx && tx.gasPrice.isSome

/-- RLP list [nonce, gasPrice, gas, from.toLowerCase(), input, signatures]
assembled by getRLPEncoding; none when a needed field is undefined or a hex
string is malformed (where the JS would raise a TypeError or feed garbage to
the codec). -/
def txOuterItem (tx : CDATx) : Option RItem :=
  match tx.nonce, tx.gasPrice, tx.gas, tx.fromAddr with
  | some nb, some gpb, some gb, some f =>
    match hexCharsToBytes (lowerChars f), hexCharsToBytes tx.input with
    | some fb, some ib =>
      some (.list (.cons (.str nb) (.cons (.str gpb) (.cons (.str gb)
        (.cons (.str fb) (.cons (.str ib)
          (.cons (.list (sigsItems tx.signatures)) .nil)))))))
    | _, _ => none
  | _, _, _, _ => none

/-- getRLPEncoding of the source file (lines 125-140): validates the optional
fields, then returns the type tag followed by the RLP encoding of the field
list (the JS prepends 0x48 to the RLP hex with its own 0x stripped). -/
def getRLPEncoding (tx : CDATx) : Option (List Nat) :=
  if validateOptionalValues tx then
    (txOuterItem tx).map fun it => tagChars ++ bytesToHexChars (rlpEncode it)
  else none

/-- getCommonRLPEncodingForSignature of the source file (lines 152-163):
validates the optional fields, then returns the RLP encoding of the list
[typeTag, nonce, gasPrice, gas, from.toLowerCase(), input]. -/
def getCommonRLPEncodingForSignature (tx : CDATx) : Option (List Nat) :=
  if validateOptionalValues tx then
    match tx.nonce, tx.gasPrice, tx.gas, tx.fromAddr with
    | some nb, some gpb, some gb, some f =>
      match hexCharsToBytes (lowerChars f), hexCharsToBytes tx.input with
      | some fb, some ib =>
        some (bytesToHexChars (rlpEncode (.list (.cons (.str [tagByte])
          (.cons (.str nb) (.cons (.str gpb) (.cons (.str gb)
            (.cons (.str fb) (.cons (.str ib) .nil)))))))))
      | _, _ => none
    | _, _, _, _ => none
  else none

/-- Field object produced by the module-level _decode helper, before the
constructor re-validates and stores the fields. -/
structure DecodedFields where
  nonce : List Nat
  gasPrice : List Nat
  gas : List Nat
  fromB : List Nat
  inputB : List Nat
  sigs : List SigData
  deriving DecidableEq

/-- Signature triples of a decoded RLP spine ([ [v, r, s], ... ]). -/
def sigsOfItems : RItems → Option (List SigData)
  | .nil => some []
  | .cons (.list (.cons (.str v) (.cons (.str r) (.cons (.str s) .nil)))) tl =>
    match sigsOfItems tl with
    | some rest => some ({ v := v, r := r, s := s } :: rest)
    | none => none
  | _ => none

/-- JS array destructuring of the decoded RLP value into the six fields
[nonce, gasPrice, gas, from, input, signatures]: the first five must be byte
strings and the sixth a list; trailing items are ignored as in JS. -/
def destructure6 (it : RItem) :
    Option (List Nat × List Nat × List Nat × List Nat × List Nat × RItems) :=
  match it with
  | .list (.cons (.str nb) (.cons (.str gpb) (.cons (.str gb)
      (.cons (.str fb) (.cons (.str ib) (.cons (.list sg) _)))))) =>
    some (nb, gpb, gb, fb, ib, sg)
  | _ => none

/-- The module-level _decode of the source file (lines 26-41): checks the tag
prefix, strips it, RLP-decodes the remainder, destructures the first six
items, and normalizes the integer fields by stripping leading zero bytes. -/
def _decode (str : List Nat) : Except TxErr DecodedFields :=
  if str.take 2 ≠ tagChars then .error .unsupportedTypeTag
  else
    match hexCharsToBytes (str.drop 2) with
    | none => .error .malformedRlp
    | some bytes =>
      match rlpDecodeBytes bytes with
      | none => .error .malformedRlp
      | some it =>
        match destructure6 it with
        | none => .error .malformedRlp
        | some (nb, gpb, gb, fb, ib, sg) =>
          match sigsOfItems sg with
          | some sigs =>
            .ok { nonce := dropZeros nb, gasPrice := dropZeros gpb,
                  gas := dropZeros gb, fromB := fb, inputB := ib, sigs := sigs }
          | none => .error .malformedRlp

/-- Construction of the transaction object from decoded fields: the shared
constructor runs the (spec-modelled) common setters on the decoded hex
strings, then the subclass stores input and gasPrice through its own setters
exactly as the source constructor does. The decoded from and input values
are the character slices the codec cut out of the wire; the wires this
development produces are canonical lower-case hex, on which that slice is
precisely bytesToHexChars of the item's bytes. -/
def constructFromDecoded (d : DecodedFields) : Except TxErr CDATx :=
  match setFrom (bytesToHexChars d.fromB) with
  | .error e => .error e
  | .ok f =>
    match setInput (some { px := true, cs := bytesToHexChars d.inputB }) with
    | .error e => .error e
    | .ok inp =>
      .ok { nonce := some (normInt d.nonce),
            gasPrice := some (normInt d.gasPrice),
            gas := some (normInt d.gas), chainId := none,
            fromAddr := some f, input := inp, signatures := d.sigs }

/-- ChainDataAnchoring.decode of the source file: _decode followed by the
constructor on the decoded field object. -/
def decodeChainDataAnchoring (str : List Nat) : Except TxErr CDATx :=
  match _decode str with
  | .error e => .error e
  | .ok d => constructFromDecoded d

/-- Caller-supplied construction object (the createTxObj of the source), each
field optional. Integer fields are given by value; signatures are taken
already in the internal triple form (the shape adaptation performed by
appendSignatures is outside the claims considered here). -/
structure CreateObj where
  nonce : Option Nat
  gasPrice : Option Nat
  gas : Option Nat
  chainId : Option Nat
  fromAddr : Option JsStr
  input : Option JsStr
  data : Option JsStr
  signatures : List SigData

/-- Modelled from the spec: the AbstractTransaction constructor assigns each
provided common field through its validating setter (gasPrice is left to the
subclass, as the source file shows). -/
def superConstruct (o : CreateObj) : Except TxErr CDATx :=
  match o.fromAddr with
  | some f =>
    match setFrom f.cs with
    | .error e => .error e
    | .ok fr =>
      .ok { nonce := o.nonce.map natToBytes, gasPrice := none,
            gas := o.gas.map natToBytes, chainId := o.chainId.map natToBytes,
            fromAddr := some fr, input := [], signatures := o.signatures }
  | none =>
    .ok { nonce := o.nonce.map natToBytes, gasPrice := none,
          gas := o.gas.map natToBytes, chainId := o.chainId.map natToBytes,
          fromAddr := none, input := [], signatures := o.signatures }

/-- The ChainDataAnchoring constructor on a field object (source lines
83-92): the shared constructor runs first, then the input/data conflict
check, the input setter on input || data, and the gasPrice setter when
gasPrice is defined. -/
def chainDataAnchoringFromObj (o : CreateObj) : Except TxErr CDATx :=
  match superConstruct o with
  | .error e => .error e
  | .ok base =>
    if truthyO o.input && truthyO o.data then .error .conflictingField
    else
      match setInput (jsOr o.input o.data) with
      | .error e => .error e
      | .ok inp =>
        .ok { base with input := inp, gasPrice := o.gasPrice.map natToBytes }

/-- fillTransaction of the source file (lines 174-184), with the three RPC
results passed in as values (getChainId, suggestedGasPrice and getNonce are
external collaborators): a field that is not undefined keeps its own value,
an undefined one takes the RPC result, and all three results are then
assigned through the canonicalizing setters. isNot of the transaction helper
is modelled as undefined-ness. -/
def fillTransaction (tx : CDATx) (rpcChainId rpcGasPrice rpcNonce : List Nat) : CDATx :=
  let c := tx.chainId.getD rpcChainId
  let g := tx.gasPrice.getD rpcGasPrice
  let n := tx.nonce.getD rpcNonce
  { tx with
    chainId := some (normInt c),
    gasPrice := some (normInt g),
    nonce := some (normInt n) }

/-- Follows the words of the spec (§4.1), for comparison with the
code-derived encodings: the claimed signing payload is the type tag
concatenated in front of RLP([nonce, gasPrice, gas, payload fields, chainId,
0, 0]), the payload fields of this variant being from and input, and the
integer 0 encoding as an empty byte string. -/
def specClaimedSigningPayload (tx : CDATx) : Option (List Nat) :=
  match tx.nonce, tx.gasPrice, tx.gas, tx.chainId, tx.fromAddr with
  | some nb, some gpb, some gb, some cb, some f =>
    match hexCharsToBytes (lowerChars f), hexCharsToBytes tx.input with
    | some fb, some ib =>
      some (tagChars ++ bytesToHexChars (rlpEncode (.list (itemsOfList
        [.str nb, .str gpb, .str gb, .str fb, .str ib, .str cb,
         .str [], .str []]))))
    | _, _ => none
  | _, _, _, _, _ => none

theorem setFrom_error (cs : List Nat) (e : TxErr) (h : setFrom cs = .error e) :
    e = .invalidAddress := by
  unfold setFrom at h
  split_ifs at h <;> cases h <;> rfl

theorem setInput_error (v : Option JsStr) (e : TxErr) (h : setInput v = .error e) :
    e = .invalidInput := by
  unfold setInput at h
  cases v with
  | none => cases h; rfl
  | some s =>
    simp only at h
    split_ifs at h <;> cases h <;> rfl

theorem setInput_ok_hex (v : Option JsStr) (out : List Nat)
    (h : setInput v = .ok out) : out.all isHexCode = true := by
  unfold setInput at h
  cases v with
  | none => cases h
  | some s =>
    simp only at h
    by_cases h1 : truthy s = false
    · rw [if_pos h1] at h
      cases h
    · rw [if_neg h1] at h
      by_cases h2 : isHexStr s = false
      · rw [if_pos h2] at h
        cases h
      · rw [if_neg h2] at h
        cases h
        have hall : s.cs.all isHexCode = true := by
          cases hb : isHexStr s
          · exact absurd hb h2
          · exact hb
        rw [List.all_eq_true] at hall ⊢
        intro c hcmem
        simp only [lowerChars] at hcmem
        obtain ⟨c0, hc0, rfl⟩ := List.mem_map.mp hcmem
        exact isHexCode_of_lower _ (isLowerHexCode_lowerChar c0 (hall c0 hc0))

theorem sigsOfItems_sigsItems : ∀ sigs : List SigData,
    sigsOfItems (sigsItems sigs) = some sigs
  | [] => rfl
  | sg :: rest => by
    rw [sigsItems, sigItem, sigsOfItems, sigsOfItems_sigsItems rest]

theorem constructFromDecoded_no_tag_error (d : DecodedFields) :
    constructFromDecoded d ≠ .error .unsupportedTypeTag := by
  unfold constructFromDecoded
  cases hf : setFrom (bytesToHexChars d.fromB) with
  | error e =>
    have he := setFrom_error _ _ hf
    simp [he]
  | ok f =>
    cases hi : setInput (some { px := true, cs := bytesToHexChars d.inputB }) with
    | error e =>
      have he := setInput_error _ _ hi
      simp [he]
    | ok inp => simp

theorem _decode_tag_iff (str : List Nat) :
    _decode str = .error .unsupportedTypeTag ↔ ¬ str.take 2 = tagChars := by
  unfold _decode
  by_cases htag : str.take 2 = tagChars
  · rw [if_neg (fun hne => hne htag)]
    constructor
    · intro hc
      exfalso
      cases hb : hexCharsToBytes (str.drop 2) with
      | none => rw [hb] at hc; simp at hc
      | some bytes =>
        rw [hb] at hc
        simp only at hc
        cases hr : rlpDecodeBytes bytes with
        | none => rw [hr] at hc; simp at hc
        | some it =>
          rw [hr] at hc
          simp only at hc
          cases hd6 : destructure6 it with
          | none => rw [hd6] at hc; simp at hc
          | some tup =>
            rw [hd6] at hc
            obtain ⟨nb, gpb, gb, fb, ib, sg⟩ := tup
            simp only at hc
            cases hsg : sigsOfItems sg with
            | none => rw [hsg] at hc; simp at hc
            | some sigs => rw [hsg] at hc; simp at hc
    · intro hne
      exact absurd htag hne
  · rw [if_pos htag]
    simp [htag]

/-- C4: decoding an input whose two leading tag characters differ from the
ChainDataAnchoring tag 48 fails with the unsupported-type-tag error, and
this happens exactly when the leading characters differ: the tag dispatch
depends only on the leading tag bytes of the input, never on the payload. -/
theorem decode_tag_dispatch (str : List Nat) :
    decodeChainDataAnchoring str = .error .unsupportedTypeTag ↔
      ¬ str.take 2 = tagChars := by
  unfold decodeChainDataAnchoring
  cases hd : _decode str with
  | error e =>
    constructor
    · intro hc
      cases hc
      exact (_decode_tag_iff str).mp hd
    · intro hne
      have ht := (_decode_tag_iff str).mpr hne
      rw [hd] at ht
      cases ht
      rfl
  | ok d =>
    constructor
    · intro hc
      exact absurd hc (constructFromDecoded_no_tag_error d)
    · intro hne
      have ht := (_decode_tag_iff str).mpr hne
      rw [hd] at ht
      cases ht

/-- C5: constructing from a field object that carries both a truthy input
and a truthy data value fails with the conflicting-field error, before any
encoding is attempted (the constructor performs no encoding), provided the
shared constructor accepted the common fields. -/
theorem construct_conflict (o : CreateObj)
    (hin : truthyO o.input = true) (hdat : truthyO o.data = true)
    (hsuper : (superConstruct o).isOk = true) :
    chainDataAnchoringFromObj o = .error .conflictingField := by
  unfold chainDataAnchoringFromObj
  cases hs : superConstruct o with
  | error e =>
    rw [hs] at hsuper
    simp [Except.isOk, Except.toBool] at hsuper
  | ok base =>
    simp [hin, hdat]

/-- C6: the input setter rejects, at the point of assignment, every value
that is not a valid hex string (undefined included), and after a successful
assignment the stored value consists of hex characters only. -/
theorem input_setter_validates (v : Option JsStr) :
    ((∀ s, v = some s → isHexStr s = false) → ∃ e, setInput v = .error e) ∧
    (∀ out, setInput v = .ok out → out.all isHexCode = true) := by
  constructor
  · intro hbad
    cases v with
    | none => exact ⟨.invalidInput, rfl⟩
    | some s =>
      have hs := hbad s rfl
      refine ⟨.invalidInput, ?_⟩
      unfold setInput
      simp only
      split_ifs with h1
      · rfl
      · rfl
  · exact fun out h => setInput_ok_hex v out h

/-- C9: a field object that supplies neither a truthy input nor a truthy
data value never constructs (the input payload is effectively required at
construction time), and every successfully constructed object stores a
hex-valid input. -/
theorem construct_requires_input (o : CreateObj) :
    (truthyO o.input = false → truthyO o.data = false →
      ∀ tx, chainDataAnchoringFromObj o ≠ .ok tx) ∧
    (∀ tx, chainDataAnchoringFromObj o = .ok tx →
      tx.input.all isHexCode = true) := by
  unfold chainDataAnchoringFromObj
  cases hs : superConstruct o with
  | error e =>
    constructor
    · intro _ _ tx hc
      cases hc
    · intro tx hc
      cases hc
  | ok base =>
    constructor
    · intro hin hdat tx hc
      simp only [hin, Bool.false_and] at hc
      rw [if_neg (by simp)] at hc
      rw [show jsOr o.input o.data = o.data by rw [jsOr, hin]; simp] at hc
      cases hd : o.data with
      | none => rw [hd] at hc; simp [setInput] at hc
      | some s =>
        rw [hd] at hc
        have hts : truthy s = false := by
          rw [hd] at hdat
          exact hdat
        simp [setInput, hts] at hc
    · intro tx hc
      simp only at hc
      by_cases hcond : (truthyO o.input && truthyO o.data) = true
      · rw [if_pos hcond] at hc
        cases hc
      · rw [if_neg hcond] at hc
        cases hi : setInput (jsOr o.input o.data) with
        | error e => rw [hi] at hc; cases hc
        | ok inp =>
          rw [hi] at hc
          cases hc
          simpa using setInput_ok_hex _ _ hi

/-- C8: fillTransaction keeps each already-defined field among chainId,
gasPrice and nonce at its prior value, resolves only the undefined ones from
the RPC results, and leaves every other field unchanged. -/
theorem fillTransaction_no_overwrite (tx : CDATx) (rc rg rn : List Nat)
    (hc : ∀ v, tx.chainId = some v → v.head? ≠ some 0)
    (hg : ∀ v, tx.gasPrice = some v → v.head? ≠ some 0)
    (hn : ∀ v, tx.nonce = some v → v.head? ≠ some 0) :
    (∀ v, tx.chainId = some v →
      (fillTransaction tx rc rg rn).chainId = some v) ∧
    (tx.chainId = none →
      (fillTransaction tx rc rg rn).chainId = some (normInt rc)) ∧
    (∀ v, tx.gasPrice = some v →
      (fillTransaction tx rc rg rn).gasPrice = some v) ∧
    (tx.gasPrice = none →
      (fillTransaction tx rc rg rn).gasPrice = some (normInt rg)) ∧
    (∀ v, tx.nonce = some v →
      (fillTransaction tx rc rg rn).nonce = some v) ∧
    (tx.nonce = none →
      (fillTransaction tx rc rg rn).nonce = some (normInt rn)) ∧
    (fillTransaction tx rc rg rn).gas = tx.gas ∧
    (fillTransaction tx rc rg rn).fromAddr = tx.fromAddr ∧
    (fillTransaction tx rc rg rn).input = tx.input ∧
    (fillTransaction tx rc rg rn).signatures = tx.signatures := by
  unfold fillTransaction
  refine ⟨?_, ?_, ?_, ?_, ?_, ?_, rfl, rfl, rfl, rfl⟩
  · intro v hv
    simp only [hv, Option.getD_some]
    rw [normInt, dropZeros_of_head v (hc v hv)]
  · intro hv
    simp [hv]
  · intro v hv
    simp only [hv, Option.getD_some]
    rw [normInt, dropZeros_of_head v (hg v hv)]
  · intro hv
    simp [hv]
  · intro v hv
    simp only [hv, Option.getD_some]
    rw [normInt, dropZeros_of_head v (hn v hv)]
  · intro hv
    simp [hv]

/-- C10: two transactions identical except for the letter case of the from
address yield identical getRLPEncoding and getCommonRLPEncodingForSignature
results, both methods lower-casing from at encoding time. -/
theorem encoding_from_case_insensitive (tx : CDATx) (f g : List Nat)
    (hf : tx.fromAddr = some f) (hcase : lowerChars g = lowerChars f) :
    getRLPEncoding { tx with fromAddr := some g } = getRLPEncoding tx ∧
    getCommonRLPEncodingForSignature { tx with fromAddr := some g } =
      getCommonRLPEncodingForSignature tx := by
  rcases tx with ⟨n, gp, gs, c, fr, inp, sigs⟩
  simp only at hf
  subst hf
  cases n <;> cases gp <;> cases gs <;> cases c <;>
    simp [getRLPEncoding, getCommonRLPEncodingForSignature, txOuterItem,
      validateOptionalValues, validateCommonFields, hcase]

/-- Example lower-case sender address (40 hex characters a). -/
def exFrom : List Nat := List.replicate 40 97

/-- Example upper-case spelling of the same sender address. -/
def exFromUpper : List Nat := List.replicate 40 65

/-- Example fully-filled, signed transaction used as a concrete instance. -/
def exTx : CDATx :=
  { nonce := some [25], gasPrice := some [90], gas := some [1, 2],
    chainId := some [1], fromAddr := some exFrom, input := [48, 49],
    signatures := [{ v := [27], r := [1], s := [2] }] }

/-- Example construction object carrying both input and data. -/
def exObjConflict : CreateObj :=
  { nonce := some 25, gasPrice := some 90, gas := some 258, chainId := some 1,
    fromAddr := some { px := true, cs := exFrom },
    input := some { px := true, cs := [48] },
    data := some { px := true, cs := [49] }, signatures := [] }

/-- Example construction object without input or data. -/
def exObjNoInput : CreateObj :=
  { exObjConflict with input := none, data := none }

/-- Witness for C5 at a concrete object. -/
theorem construct_conflict_witness :
    chainDataAnchoringFromObj exObjConflict = .error .conflictingField :=
  construct_conflict exObjConflict (by decide) (by decide) (by decide)

/-- Witness for C6 at concrete values: the character g is rejected, hex
digits are accepted and stored as hex. -/
theorem input_setter_validates_witness :
    (∃ e, setInput (some { px := true, cs := [103] }) = .error e) ∧
    List.all [48, 97] isHexCode = true :=
  ⟨(input_setter_validates (some { px := true, cs := [103] })).1
      (by intro s hs; cases hs; decide),
   (input_setter_validates (some { px := false, cs := [48, 97] })).2 [48, 97]
      (by decide)⟩

/-- Witness for C8 at a concrete transaction with chainId unset and gasPrice
set: chainId is resolved from the RPC value, gasPrice keeps its value. -/
theorem fillTransaction_no_overwrite_witness :
    (fillTransaction { exTx with chainId := none } [5] [6] [7]).chainId =
      some (normInt [5]) ∧
    (fillTransaction { exTx with chainId := none } [5] [6] [7]).gasPrice =
      some [90] := by
  have h := fillTransaction_no_overwrite { exTx with chainId := none } [5] [6] [7]
    (by intro v hv; cases hv)
    (by intro v hv; cases hv; decide)
    (by intro v hv; cases hv; decide)
  exact ⟨h.2.1 rfl, h.2.2.1 [90] rfl⟩

/-- Witness for C9 at a concrete object without input or data. -/
theorem construct_requires_input_witness :
    chainDataAnchoringFromObj exObjNoInput ≠ .ok exTx :=
  (construct_requires_input exObjNoInput).1 rfl rfl exTx

/-- Witness for C10 at a concrete pair of transactions differing only in the
case of the from address. -/
theorem encoding_from_case_insensitive_witness :
    getRLPEncoding { exTx with fromAddr := some exFromUpper } =
      getRLPEncoding exTx ∧
    getCommonRLPEncodingForSignature { exTx with fromAddr := some exFromUpper } =
      getCommonRLPEncodingForSignature exTx :=
  encoding_from_case_insensitive exTx exFrom exFromUpper rfl (by decide)

/-- C3 (amended): with a convertible from address and input in place,
getRLPEncoding succeeds exactly when nonce, gasPrice, gas and chainId are all
defined, and a success is the type tag followed by the RLP encoding of
[nonce, gasPrice, gas, from, input, signatureList]; the signature list is
not inspected, so an empty one is not rejected (see the counterexample). -/
theorem getRLPEncoding_requires_fields (tx : CDATx) (f : List Nat)
    (hf : tx.fromAddr = some f)
    (hfb : (hexCharsToBytes (lowerChars f)).isSome = true)
    (hib : (hexCharsToBytes tx.input).isSome = true) :
    ((getRLPEncoding tx).isSome = true ↔
      (tx.nonce.isSome && tx.gasPrice.isSome && tx.gas.isSome &&
        tx.chainId.isSome) = true) ∧
    (∀ nb gpb gb cb fb ib, tx.nonce = some nb → tx.gasPrice = some gpb →
      tx.gas = some gb → tx.chainId = some cb →
      hexCharsToBytes (lowerChars f) = some fb →
      hexCharsToBytes tx.input = some ib →
      getRLPEncoding tx = some (tagChars ++ bytesToHexChars (rlpEncode
        (.list (.cons (.str nb) (.cons (.str gpb) (.cons (.str gb)
          (.cons (.str fb) (.cons (.str ib)
            (.cons (.list (sigsItems tx.signatures)) .nil)))))))))) := by
  obtain ⟨fb0, hfb0⟩ := Option.isSome_iff_exists.mp hfb
  obtain ⟨ib0, hib0⟩ := Option.isSome_iff_exists.mp hib
  rcases tx with ⟨n, gp, gs, c, fr, inp, sigs⟩
  simp only at hf hib0 ⊢
  subst hf
  constructor
  · cases n <;> cases gp <;> cases gs <;> cases c <;>
      simp [getRLPEncoding, txOuterItem, validateOptionalValues,
        validateCommonFields, hfb0, hib0]
  · intro nb gpb gb cb fb ib hn hgp hg hc hfb1 hib1
    subst hn; subst hgp; subst hg; subst hc
    simp [getRLPEncoding, txOuterItem, validateOptionalValues,
      validateCommonFields, hfb1, hib1]

/-- Witness for C3 at the concrete example transaction. -/
theorem getRLPEncoding_requires_fields_witness :
    (getRLPEncoding exTx).isSome = true :=
  ((getRLPEncoding_requires_fields exTx exFrom rfl (by decide)
      (by decide)).1).mpr (by decide)

/-- Example transaction with all required fields set and no signature. -/
def exTxEmptySig : CDATx := { exTx with signatures := [] }

/-- Counterexample for C3 as stated: a fully-filled transaction without any
signature still encodes successfully (the empty list is encoded, not
rejected). -/
theorem getRLPEncoding_empty_sig_cex :
    exTxEmptySig.signatures = [] ∧
    (getRLPEncoding exTxEmptySig).isSome = true := by decide

/-- Wire-level integer items of an encoded transaction, before any
normalization: the first three RLP items of the payload. -/
def rawIntFields (str : List Nat) : Option (List Nat × List Nat × List Nat) :=
  match hexCharsToBytes (str.drop 2) with
  | some bytes =>
    match rlpDecodeBytes bytes with
    | some it =>
      match destructure6 it with
      | some (nb, gpb, gb, _, _, _) => some (nb, gpb, gb)
      | none => none
    | none => none
  | none => none

theorem _decode_rawIntFields (str : List Nat) (d : DecodedFields)
    (h : _decode str = .ok d) :
    ∃ n gp g, rawIntFields str = some (n, gp, g) ∧
      d.nonce = dropZeros n ∧ d.gasPrice = dropZeros gp ∧
      d.gas = dropZeros g := by
  unfold _decode at h
  by_cases htag : str.take 2 = tagChars
  · rw [if_neg (fun hne => hne htag)] at h
    cases hb : hexCharsToBytes (str.drop 2) with
    | none => rw [hb] at h; cases h
    | some bytes =>
      rw [hb] at h
      simp only at h
      cases hr : rlpDecodeBytes bytes with
      | none => rw [hr] at h; cases h
      | some it =>
        rw [hr] at h
        simp only at h
        cases hd6 : destructure6 it with
        | none => rw [hd6] at h; cases h
        | some tup =>
          rw [hd6] at h
          obtain ⟨nb, gpb, gb, fb, ib, sg⟩ := tup
          simp only at h
          cases hsg : sigsOfItems sg with
          | none => rw [hsg] at h; cases h
          | some sigs =>
            rw [hsg] at h
            cases h
            refine ⟨nb, gpb, gb, ?_, rfl, rfl, rfl⟩
            simp only [rawIntFields, hb, hr, hd6]
  · rw [if_pos htag] at h
    cases h

/-- C7: every successfully decoded transaction stores its integer fields as
the wire items with their leading zero bytes stripped, hence in canonical
minimal form regardless of how the wire encoded them. -/
theorem decode_strips_leading_zeros (str : List Nat) (tx : CDATx)
    (n gp g : List Nat)
    (hok : decodeChainDataAnchoring str = .ok tx)
    (hraw : rawIntFields str = some (n, gp, g)) :
    tx.nonce = some (dropZeros n) ∧ tx.gasPrice = some (dropZeros gp) ∧
    tx.gas = some (dropZeros g) ∧
    (∀ v, tx.nonce = some v → v.head? ≠ some 0) ∧
    (∀ v, tx.gasPrice = some v → v.head? ≠ some 0) ∧
    (∀ v, tx.gas = some v → v.head? ≠ some 0) := by
  unfold decodeChainDataAnchoring at hok
  cases hd : _decode str with
  | error e => rw [hd] at hok; cases hok
  | ok d =>
    rw [hd] at hok
    obtain ⟨n2, gp2, g2, hraw2, hn2, hgp2, hg2⟩ := _decode_rawIntFields str d hd
    rw [hraw2] at hraw
    have hn : n2 = n := congrArg (fun p => p.1) (Option.some.inj hraw)
    have hgp : gp2 = gp :=
      congrArg (fun p => p.2.1) (Option.some.inj hraw)
    have hg : g2 = g := congrArg (fun p => p.2.2) (Option.some.inj hraw)
    subst hn; subst hgp; subst hg
    simp only at hok
    unfold constructFromDecoded at hok
    cases hfm : setFrom (bytesToHexChars d.fromB) with
    | error e => rw [hfm] at hok; cases hok
    | ok f0 =>
      rw [hfm] at hok
      simp only at hok
      cases hin : setInput (some { px := true, cs := bytesToHexChars d.inputB }) with
      | error e => rw [hin] at hok; cases hok
      | ok inp =>
        rw [hin] at hok
        cases hok
        refine ⟨?_, ?_, ?_, ?_, ?_, ?_⟩
        · simp [normInt, hn2, dropZeros_idem]
        · simp [normInt, hgp2, dropZeros_idem]
        · simp [normInt, hg2, dropZeros_idem]
        · intro v hv
          obtain rfl : v = normInt d.nonce := (Option.some.inj hv).symm
          exact dropZeros_head _
        · intro v hv
          obtain rfl : v = normInt d.gasPrice := (Option.some.inj hv).symm
          exact dropZeros_head _
        · intro v hv
          obtain rfl : v = normInt d.gas := (Option.some.inj hv).symm
          exact dropZeros_head _

/-- Byte form of the example sender address. -/
def exFromBytes : List Nat := List.replicate 20 170

/-- Example wire item whose nonce and gasPrice carry leading zero bytes. -/
def exWireItem : RItem :=
  .list (.cons (.str [0, 9]) (.cons (.str [0, 90]) (.cons (.str [1, 2])
    (.cons (.str exFromBytes) (.cons (.str [1])
      (.cons (.list (sigsItems [{ v := [27], r := [1], s := [2] }])) .nil))))))

/-- Example raw encoding carrying non-minimal integer fields. -/
def exWire : List Nat := tagChars ++ bytesToHexChars (rlpEncode exWireItem)

/-- The transaction decoded from the example wire encoding. -/
def exWireTx : CDATx :=
  { nonce := some [9], gasPrice := some [90], gas := some [1, 2],
    chainId := none, fromAddr := some exFrom, input := [48, 49],
    signatures := [{ v := [27], r := [1], s := [2] }] }

/-- Witness for C7 at a concrete wire encoding whose nonce 0x0009 and
gasPrice 0x005a carry a leading zero byte each. -/
theorem decode_strips_leading_zeros_witness :
    exWireTx.nonce = some (dropZeros [0, 9]) ∧
    exWireTx.gasPrice = some (dropZeros [0, 90]) := by
  have h := decode_strips_leading_zeros exWire exWireTx [0, 9] [0, 90] [1, 2]
    (by decide) (by decide)
  exact ⟨h.1, h.2.1⟩

theorem rlpEncode_list_head (items : RItems) :
    ∃ b rest, rlpEncode (.list items) = b :: rest ∧ 192 ≤ b := by
  rw [rlpEncode, encWithLen]
  split_ifs with h
  · exact ⟨_, _, rfl, by omega⟩
  · exact ⟨_, _, rfl, by omega⟩

theorem take2_ne_tag (b : Nat) (rest : List Nat) (hb : 192 ≤ b) :
    (bytesToHexChars (b :: rest)).take 2 ≠ tagChars := by
  rw [bytesToHexChars_cons]
  intro hcontra
  simp only [List.take_succ_cons, List.take_zero, tagChars] at hcontra
  have h1 : hexDigitChar (b / 16) = 52 := by
    have := List.head_eq_of_cons_eq hcontra
    exact this
  have hd : 12 ≤ b / 16 := by omega
  rw [hexDigitChar, if_neg (by omega)] at h1
  omega

/-- C2 (amended): with all required fields defined, the signing-side common
encoding supplied by the variant is RLP([typeTag, nonce, gasPrice, gas,
from, input]): the type tag is the first element inside the RLP list rather
than concatenated outside it, and the chainId with the two zero placeholders
is not part of this common encoding; its output never begins with the tag
characters, because an RLP list prefix byte is at least 0xc0. -/
theorem getCommonRLPEncodingForSignature_shape (tx : CDATx)
    (nb gpb gb cb f fb ib : List Nat)
    (hn : tx.nonce = some nb) (hgp : tx.gasPrice = some gpb)
    (hg : tx.gas = some gb) (hc : tx.chainId = some cb)
    (hf : tx.fromAddr = some f)
    (hfb : hexCharsToBytes (lowerChars f) = some fb)
    (hib : hexCharsToBytes tx.input = some ib) :
    getCommonRLPEncodingForSignature tx =
      some (bytesToHexChars (rlpEncode (.list (.cons (.str [tagByte])
        (.cons (.str nb) (.cons (.str gpb) (.cons (.str gb)
          (.cons (.str fb) (.cons (.str ib) .nil))))))))) ∧
    (∀ s, getCommonRLPEncodingForSignature tx = some s →
      s.take 2 ≠ tagChars) := by
  have henc : getCommonRLPEncodingForSignature tx =
      some (bytesToHexChars (rlpEncode (.list (.cons (.str [tagByte])
        (.cons (.str nb) (.cons (.str gpb) (.cons (.str gb)
          (.cons (.str fb) (.cons (.str ib) .nil))))))))) := by
    simp [getCommonRLPEncodingForSignature, validateOptionalValues,
      validateCommonFields, hn, hgp, hg, hc, hf, hfb, hib]
  refine ⟨henc, ?_⟩
  intro s hs
  rw [henc] at hs
  have hs2 := Option.some.inj hs
  obtain ⟨b, rest, hb, hb192⟩ := rlpEncode_list_head (.cons (.str [tagByte])
    (.cons (.str nb) (.cons (.str gpb) (.cons (.str gb)
      (.cons (.str fb) (.cons (.str ib) .nil))))))
  rw [← hs2, hb]
  exact take2_ne_tag b rest hb192

/-- Witness for C2 at a concrete transaction. -/
theorem getCommonRLPEncodingForSignature_shape_witness :
    getCommonRLPEncodingForSignature exTx =
      some (bytesToHexChars (rlpEncode (.list (.cons (.str [tagByte])
        (.cons (.str [25]) (.cons (.str [90]) (.cons (.str [1, 2])
          (.cons (.str exFromBytes) (.cons (.str [1]) .nil))))))))) :=
  (getCommonRLPEncodingForSignature_shape exTx [25] [90] [1, 2] [1] exFrom
    exFromBytes [1] rfl rfl rfl rfl rfl (by decide) (by decide)).1

/-- Counterexample for C2 as stated: the common signing encoding of a
concrete filled transaction differs from the composition the spec claims
(type tag outside, chainId and zero placeholders inside a flat list), and it
does not begin with the tag characters, while the claimed composition does. -/
theorem getCommonRLPEncodingForSignature_cex :
    (getCommonRLPEncodingForSignature exTx).isSome = true ∧
    (specClaimedSigningPayload exTx).isSome = true ∧
    getCommonRLPEncodingForSignature exTx ≠ specClaimedSigningPayload exTx ∧
    ((getCommonRLPEncodingForSignature exTx).getD []).take 2 ≠ tagChars ∧
    ((specClaimedSigningPayload exTx).getD []).take 2 = tagChars := by decide

/-- C1: decode inverts getRLPEncoding on every validly constructed, fully
filled, signed transaction: with the fields in the canonical stored form
the setters establish (minimal integer bytes, a 20-byte lower-case from
address, the input in its canonical whole-byte hex representation) and at
least one signature, the decoded transaction reproduces nonce, gasPrice,
gas, from, input and the signature list in the same order. -/
theorem decode_getRLPEncoding_roundtrip (tx : CDATx)
    (nb gpb gb cb f : List Nat) (it : RItem)
    (hn : tx.nonce = some nb) (hnz : nb.head? ≠ some 0)
    (hgp : tx.gasPrice = some gpb) (hgpz : gpb.head? ≠ some 0)
    (hg : tx.gas = some gb) (hgz : gb.head? ≠ some 0)
    (hc : tx.chainId = some cb)
    (hf : tx.fromAddr = some f) (hflen : f.length = 40)
    (hfhex : ∀ c ∈ f, isLowerHexCode c = true)
    (hihex : ∀ c ∈ tx.input, isLowerHexCode c = true)
    (hilen : tx.input.length % 2 = 0)
    (hsig : tx.signatures ≠ [])
    (hit : txOuterItem tx = some it) (hwf : rlpWf it = true) :
    ∃ str tx2, getRLPEncoding tx = some str ∧
      decodeChainDataAnchoring str = .ok tx2 ∧
      tx2.nonce = tx.nonce ∧ tx2.gasPrice = tx.gasPrice ∧ tx2.gas = tx.gas ∧
      tx2.fromAddr = tx.fromAddr ∧ tx2.input = tx.input ∧
      tx2.signatures = tx.signatures := by
  have hfeven : f.length % 2 = 0 := by rw [hflen]
  obtain ⟨fb, hfb, hfback, hfblt⟩ := hexCharsToBytes_inv f hfhex hfeven
  have hflower : lowerChars f = f := lowerChars_of_lower f hfhex
  obtain ⟨ib, hib, hiback, hiblt⟩ := hexCharsToBytes_inv tx.input hihex hilen
  have hit2 : it = .list (.cons (.str nb) (.cons (.str gpb) (.cons (.str gb)
      (.cons (.str fb) (.cons (.str ib)
        (.cons (.list (sigsItems tx.signatures)) .nil)))))) := by
    rw [txOuterItem, hn, hgp, hg, hf] at hit
    simp only at hit
    rw [hflower, hfb, hib] at hit
    simp only at hit
    exact (Option.some.inj hit).symm
  have hval : validateOptionalValues tx = true := by
    simp [validateOptionalValues, validateCommonFields, hn, hg, hc, hgp]
  have henc : getRLPEncoding tx =
      some (tagChars ++ bytesToHexChars (rlpEncode it)) := by
    simp [getRLPEncoding, hval, hit]
  have hbytes : ∀ b ∈ rlpEncode it, b < 256 := rlpEncode_lt it hwf
  have hhex : hexCharsToBytes (bytesToHexChars (rlpEncode it)) =
      some (rlpEncode it) := hexCharsToBytes_bytesToHexChars _ hbytes
  have hdecbytes : rlpDecodeBytes (rlpEncode it) = some it := by
    unfold rlpDecodeBytes
    have hsz : sizeI it ≤ 3 * (rlpEncode it).length + 3 := by
      have := sizeI_le it
      omega
    have hdec := (rlpDecode_inv (3 * (rlpEncode it).length + 3)).1 it [] hwf hsz
    rw [List.append_nil] at hdec
    rw [hdec]
  have hstr_take : (tagChars ++ bytesToHexChars (rlpEncode it)).take 2 =
      tagChars := by
    rw [show (2 : Nat) = tagChars.length from rfl, List.take_left]
  have hstr_drop : (tagChars ++ bytesToHexChars (rlpEncode it)).drop 2 =
      bytesToHexChars (rlpEncode it) := by
    rw [show (2 : Nat) = tagChars.length from rfl, List.drop_left]
  have hd6 : destructure6 it =
      some (nb, gpb, gb, fb, ib, sigsItems tx.signatures) := by
    rw [hit2]
    rfl
  have hsigs : sigsOfItems (sigsItems tx.signatures) = some tx.signatures :=
    sigsOfItems_sigsItems _
  have hdec : _decode (tagChars ++ bytesToHexChars (rlpEncode it)) = .ok
      { nonce := dropZeros nb, gasPrice := dropZeros gpb,
        gas := dropZeros gb, fromB := fb, inputB := ib,
        sigs := tx.signatures } := by
    unfold _decode
    rw [if_neg (fun hne => hne hstr_take)]
    rw [hstr_drop, hhex]
    simp only
    rw [hdecbytes]
    simp only
    rw [hd6]
    simp only
    rw [hsigs]
  have hallF : f.all isHexCode = true := by
    rw [List.all_eq_true]
    intro c hc2
    exact isHexCode_of_lower c (hfhex c hc2)
  have hfrom_setter : setFrom (bytesToHexChars fb) = .ok f := by
    unfold setFrom
    rw [hfback]
    split_ifs with hcond
    · rw [hflower]
    · exact absurd (by simp [hflen, hallF]) hcond
  have hallI : tx.input.all isHexCode = true := by
    rw [List.all_eq_true]
    intro c hc2
    exact isHexCode_of_lower c (hihex c hc2)
  have hinput_setter :
      setInput (some { px := true, cs := bytesToHexChars ib }) =
        .ok tx.input := by
    rw [hiback]
    unfold setInput
    simp only
    rw [if_neg (by simp [truthy]), if_neg (by simp [isHexStr, hallI]),
      lowerChars_of_lower tx.input hihex]
  have hdzn : dropZeros nb = nb := dropZeros_of_head nb hnz
  have hdzgp : dropZeros gpb = gpb := dropZeros_of_head gpb hgpz
  have hdzg : dropZeros gb = gb := dropZeros_of_head gb hgz
  have hcon : constructFromDecoded
      { nonce := dropZeros nb, gasPrice := dropZeros gpb,
        gas := dropZeros gb, fromB := fb, inputB := ib,
        sigs := tx.signatures } =
      .ok { nonce := some nb, gasPrice := some gpb, gas := some gb,
            chainId := none, fromAddr := some f, input := tx.input,
            signatures := tx.signatures } := by
    unfold constructFromDecoded
    simp only
    rw [hfrom_setter]
    simp only
    rw [hinput_setter]
    simp only [normInt, dropZeros_idem, hdzn, hdzgp, hdzg]
  have hdecfull :
      decodeChainDataAnchoring (tagChars ++ bytesToHexChars (rlpEncode it)) =
        .ok { nonce := some nb, gasPrice := some gpb, gas := some gb,
              chainId := none, fromAddr := some f, input := tx.input,
              signatures := tx.signatures } := by
    unfold decodeChainDataAnchoring
    rw [hdec]
    simp only
    exact hcon
  exact ⟨_, _, henc, hdecfull, by rw [hn], by rw [hgp], by rw [hg],
    by rw [hf], rfl, rfl⟩

/-- RLP list value that getRLPEncoding builds for the example transaction. -/
def exItem : RItem := (txOuterItem exTx).getD (.str [])

/-- Witness for C1 at the concrete example transaction. -/
theorem decode_getRLPEncoding_roundtrip_witness :
    ∃ str tx2, getRLPEncoding exTx = some str ∧
      decodeChainDataAnchoring str = .ok tx2 ∧
      tx2.nonce = exTx.nonce ∧ tx2.gasPrice = exTx.gasPrice ∧
      tx2.gas = exTx.gas ∧ tx2.fromAddr = exTx.fromAddr ∧
      tx2.input = exTx.input ∧ tx2.signatures = exTx.signatures :=
  decode_getRLPEncoding_roundtrip exTx [25] [90] [1, 2] [1] exFrom exItem
    rfl (by decide) rfl (by decide) rfl (by decide) rfl rfl (by decide)
    (by decide) (by decide) (by decide) (by decide) rfl (by decide)

end CaverCDA
